import Mathlib

/-!
Shallow embedding of `src/file2png.py` (file2png v3).

The program converts a file to a square grayscale PNG and back:
bytes are expanded into a bit string (MSB first, 8 bits per byte, built as
the text characters '0'/'1' exactly as the Python code builds `image_bits`),
the bits are drawn row-major into a `side x side` image with
`side = ceil(sqrt(num_bits))`, WHITE = 255 for bit '1', BLACK = 0 for
bit '0', and `GRAY_PADDING = 127` for the positions past the data.
Decoding scans the pixels row-major, turns 0 back into '0' and 255 into
'1', skips every other value, regroups by 8 (left-justifying a short final
block with '0') and rebuilds the bytes with `int(block, 2)` semantics.

Bytes are modelled as `Nat` (with explicit `< 256` bounds where the Python
`bytes` type guarantees them), images as their row-major pixel list
(`List Nat`), and the transient bit string as `List Char` to stay close to
the string-based accumulation of the source.  Python exceptions that the
source catches are modelled with `Except DecodeError`.
-/

/-- Constant 255 from `src/file2png.py` line 15: pixel value of a 1 bit. -/
def WHITE : Nat := 255

/-- Constant 0 from `src/file2png.py` line 16: pixel value of a 0 bit. -/
def BLACK : Nat := 0

/-- Constant 127 from `src/file2png.py` line 17: padding pixel value. -/
def GRAY_PADDING : Nat := 127

/-- Constant 8 from `src/file2png.py` line 18. -/
def BITS_PER_BYTE : Nat := 8

/-- Accumulator loop behind `bin(n)`: peel binary digits from the low end,
pushing them onto the front of the accumulator, so digits come out most
significant first.  The first argument is structural fuel (any amount at
least the digit count, supplied as `n` itself by `binChars`). -/
def binCore : Nat → Nat → List Char → List Char
  | 0, _, acc => acc
  | _ + 1, 0, acc => acc
  | fuel + 1, n, acc =>
    binCore fuel (n / 2) ((if n % 2 = 1 then '1' else '0') :: acc)

/-- Python `bin(n)[2:]`: the binary digit characters of `n`, MSB first;
`bin(0)[2:]` is the single character '0'. -/
def binChars (n : Nat) : List Char :=
  if n = 0 then ['0'] else binCore n n []

/-- Python `str.zfill(w)`: left-pad with '0' characters up to width `w`
(no change when the string is already at least `w` long). -/
def zfill (w : Nat) (s : List Char) : List Char :=
  List.replicate (w - s.length) '0' ++ s

/-- Line 66 of `src/file2png.py`: `bin(byte_val)[2:].zfill(BITS_PER_BYTE)`,
the 8-character MSB-first expansion of one byte. -/
def byteToBits (v : Nat) : List Char :=
  zfill BITS_PER_BYTE (binChars v)

/-- Lines 62-66 of `src/file2png.py`: `image_bits`, the concatenation of the
8-bit expansions of all bytes of `binary_data`, in input order. -/
def packBits (binary_data : List Nat) : List Char :=
  (binary_data.map byteToBits).flatten

/-- Linear search for the least `s` at least the third argument with
`n ≤ s * s`; the fuel (second argument) bounds the number of steps. -/
def sideCore (n : Nat) : Nat → Nat → Nat
  | 0, s => s
  | fuel + 1, s => if n ≤ s * s then s else sideCore n fuel (s + 1)

/-- Line 70 of `src/file2png.py`: `side = math.ceil(math.sqrt(num_bits))`,
as exact integer arithmetic: the least `s` with `n ≤ s * s`, which equals
the mathematical `ceil (sqrt n)` (proved below); the float detour of the
source is exact for every realistic size. -/
def sideLen (n : Nat) : Nat :=
  sideCore n n 0

/-- Lines 76-84 of `src/file2png.py`: the pixel-drawing loop.  The running
`index` equals the row-major position while it is below `num_bits`, so the
pixel at row-major position `idx` is WHITE/BLACK from bit `idx` when
`idx < num_bits` and GRAY_PADDING afterwards.  The image is returned as its
row-major pixel list of length `s * s`. -/
def drawPixels (bits : List Char) (s : Nat) : List Nat :=
  (List.range (s * s)).map fun idx =>
    if idx < bits.length then
      (if bits.getD idx '0' = '1' then WHITE else BLACK)
    else GRAY_PADDING

/-- Lines 62-84 of `src/file2png.py`: the bit-expansion and pixel-drawing
stage of `encode_file` (`pack` in the spec), from the in-memory
`binary_data` bytes to the row-major pixel list of the square image. -/
def pack (binary_data : List Nat) : List Nat :=
  drawPixels (packBits binary_data) (sideLen (packBits binary_data).length)

/-- Error taxonomy of the decode path: the explicit empty-image abort
(line 116-118), `zipfile.BadZipFile` (line 146), and the Python exceptions
that `int(block, 2)` and `bytearray.append` would raise (caught by the
outer handler at line 149, but proved unreachable below). -/
inductive DecodeError where
  | emptyOrInvalidImage : DecodeError
  | malformedArchive : DecodeError
  | valueError : DecodeError
  | byteRangeError : DecodeError
deriving DecidableEq, Repr

/-- Lines 112-114 of `src/file2png.py`: one pixel of the scan; BLACK
contributes '0', WHITE contributes '1', anything else is skipped. -/
def pixelChar (val : Nat) : Option Char :=
  if val = BLACK then some '0' else if val = WHITE then some '1' else none

/-- Lines 109-114 of `src/file2png.py`: `read_bits`, the characters
collected from the row-major pixel scan, order preserved. -/
def readBits (pixels : List Nat) : List Char :=
  pixels.filterMap pixelChar

/-- Accumulator loop behind Python `int(s, 2)` on '0'/'1' strings: `none`
as soon as a character is not a binary digit. -/
def parseBinCore : Nat → List Char → Option Nat
  | acc, [] => some acc
  | acc, c :: rest =>
    if c = '0' then parseBinCore (2 * acc) rest
    else if c = '1' then parseBinCore (2 * acc + 1) rest
    else none

/-- Python `int(s, 2)` restricted to the digit strings the program feeds
it: `none` on the empty string (ValueError) or on a non-digit character. -/
def parseBin (s : List Char) : Option Nat :=
  match s with
  | [] => none
  | _ :: _ => parseBinCore 0 s

/-- Structural worker for `chunk8`; the fuel (first argument) only needs
to be at least the list length, and `chunk8` passes the length itself. -/
def chunk8Core : Nat → List Char → List (List Char)
  | 0, _ => []
  | _ + 1, [] => []
  | fuel + 1, l => l.take 8 :: chunk8Core fuel (l.drop 8)

/-- Line 122-123 of `src/file2png.py`: the slices
`read_bits[i:i+BITS_PER_BYTE]` for `i = 0, 8, 16, ...`, i.e. the
consecutive 8-character blocks, the last one possibly shorter. -/
def chunk8 (l : List Char) : List (List Char) :=
  chunk8Core l.length l

/-- Lines 126-127 of `src/file2png.py`: the reassignment
`block = block.ljust(BITS_PER_BYTE, '0')` applied only when the block is
short — right-padding with '0' characters up to 8. -/
def ljustBlock (block : List Char) : List Char :=
  if block.length < BITS_PER_BYTE then
    block ++ List.replicate (BITS_PER_BYTE - block.length) '0'
  else block

/-- Lines 123-129 of `src/file2png.py`: one iteration of the byte
reconstruction; a short block is `ljust`ed with '0' on the right, then
`int(block, 2)` converts it and `bytearray.append` stores it (failing if
the value were not a byte). -/
def appendBlock (bytes_data : List Nat) (block : List Char) :
    Except DecodeError (List Nat) :=
  match parseBin (ljustBlock block) with
  | none => .error .valueError
  | some v => if v < 256 then .ok (bytes_data ++ [v]) else .error .byteRangeError

/-- Lines 121-129 of `src/file2png.py`: `bytes_data`, rebuilt from the
collected bit characters block by block. -/
def reconstructBytes (bits : List Char) : Except DecodeError (List Nat) :=
  (chunk8 bits).foldlM appendBlock []

/-- Lines 109-129 of `src/file2png.py`: the pixel-scanning and
byte-reconstruction stage of `decode_png` (`unpack` in the spec), from the
row-major pixel list to the recovered bytes; the empty-bits check at
line 116 aborts with `emptyOrInvalidImage` before any reconstruction. -/
def unpack (pixels : List Nat) : Except DecodeError (List Nat) :=
  let bits := readBits pixels
  if bits = [] then .error .emptyOrInvalidImage
  else reconstructBytes bits

/-- Python `str.rfind(c)` on a path modelled as a character list: the
index of the last occurrence of `c`, or `-1` when absent. -/
def rfind (c : Char) (p : List Char) : Int :=
  match List.findIdx? (fun x => x = c) p.reverse with
  | none => -1
  | some j => (p.length : Int) - 1 - j

/-- Line 38 of `src/file2png.py`:
`os.path.splitext(file_path)[1].lower()`.  Following the posixpath
implementation of `splitext`: the extension starts at the last dot after
the last separator, and is empty when every character between the
separator and that dot is itself a dot (hidden files like `.zip` have no
extension). -/
def extLower (p : List Char) : List Char :=
  let sepIdx := rfind '/' p
  let dotIdx := rfind '.' p
  if sepIdx < dotIdx then
    let start := (sepIdx + 1).toNat
    let mid := (p.drop start).take (dotIdx.toNat - start)
    if mid.any (fun ch => ch ≠ '.') then (p.drop dotIdx.toNat).map Char.toLower
    else []
  else []

/-- Line 55 of `src/file2png.py`: `os.path.basename(file_path)`, the part
of the path after the last separator. -/
def baseName (p : List Char) : List Char :=
  p.drop (rfind '/' p + 1).toNat

/-- One named member of an archive: entry name and raw contents. -/
structure ArchiveEntry where
  name : List Char
  contents : List Nat
deriving DecidableEq, Repr

/-- Length field of the modelled archive container, written in unary
(`n` ones then a zero) so that parsing is unambiguous. -/
def unaryEnc (n : Nat) : List Nat :=
  List.replicate n 1 ++ [0]

/-- Serialization of one entry of the modelled archive container:
length-prefixed name code points, then length-prefixed contents. -/
def encEntry (e : ArchiveEntry) : List Nat :=
  unaryEnc e.name.length ++ e.name.map Char.toNat ++
    unaryEnc e.contents.length ++ e.contents

/-- Modelled from the spec: the `zipfile` library used at lines 54-57 and
142-144 of `src/file2png.py` is external to the repository, so the ZIP
container is modelled abstractly as a lossless serialization of a list of
entries — a magic header (the two bytes of a real ZIP signature), an entry
count and the length-prefixed entries.  Deflate compression is lossless
and internal to the container, so it is folded into this encoding.  The
model keeps the two properties the spec relies on: serialization parses
back to exactly the entries (`zipParse_zipSerialize`), and byte streams
without the structure fail to parse (`zipfile.BadZipFile`). -/
def zipSerialize (entries : List ArchiveEntry) : List Nat :=
  80 :: 75 :: (unaryEnc entries.length ++ (entries.map encEntry).flatten)

/-- Reads one unary length field: `none` when the stream ends before the
terminating zero or holds a byte that is neither 0 nor 1. -/
def parseUnary : List Nat → Option (Nat × List Nat)
  | [] => none
  | b :: rest =>
    if b = 0 then some (0, rest)
    else if b = 1 then (parseUnary rest).map (fun pr => (pr.1 + 1, pr.2))
    else none

/-- Reads exactly `n` bytes, failing when fewer remain. -/
def splitAtLen (n : Nat) (l : List Nat) : Option (List Nat × List Nat) :=
  if n ≤ l.length then some (l.take n, l.drop n) else none

/-- Reads back one serialized entry of the modelled archive container. -/
def parseEntry (l : List Nat) : Option (ArchiveEntry × List Nat) := do
  let (nameLen, r1) ← parseUnary l
  let (nameBytes, r2) ← splitAtLen nameLen r1
  let (contLen, r3) ← parseUnary r2
  let (contBytes, r4) ← splitAtLen contLen r3
  some (⟨nameBytes.map Char.ofNat, contBytes⟩, r4)

/-- Reads back `k` serialized entries. -/
def parseEntries : Nat → List Nat → Option (List ArchiveEntry × List Nat)
  | 0, l => some ([], l)
  | k + 1, l => do
    let (e, r) ← parseEntry l
    let (es, r2) ← parseEntries k r
    some (e :: es, r2)

/-- Modelled from the spec: `zipfile.ZipFile(…, 'r')` parsing of a byte
stream, the counterpart of `zipSerialize`; `none` is the
`zipfile.BadZipFile` outcome at line 146 of `src/file2png.py`. -/
def zipParse (l : List Nat) : Option (List ArchiveEntry) :=
  match l with
  | 80 :: 75 :: rest => do
    let (k, r) ← parseUnary rest
    let (es, r2) ← parseEntries k r
    if r2 = [] then some es else none
  | _ => none

/-- Lines 44-57 of `src/file2png.py`: the archive-wrapping stage of
`encode_file` (`wrap` in the spec), taking the source path and its raw
contents.  A `.zip` extension passes the raw bytes through unchanged;
anything else becomes a fresh single-entry archive whose entry is named by
the base filename and holds the full contents. -/
def wrap (path : List Char) (contents : List Nat) : List Nat :=
  if extLower path = ['.', 'z', 'i', 'p'] then contents
  else zipSerialize [⟨baseName path, contents⟩]

/-- Lines 136-147 of `src/file2png.py`: the archive-extraction stage of
`decode_png` (`unwrap` in the spec).  A failed parse is the caught
`zipfile.BadZipFile`, reported as an error with nothing extracted; a
successful parse extracts every entry (`zf.extractall`), returned here as
the list of entries written into the destination directory. -/
def unwrap (bytes_data : List Nat) : Except DecodeError (List ArchiveEntry) :=
  match zipParse bytes_data with
  | none => .error .malformedArchive
  | some es => .ok es

/-- List of files written by an `unwrap` outcome: none on any error. -/
def filesWritten (r : Except DecodeError (List ArchiveEntry)) :
    List ArchiveEntry :=
  match r with
  | .error _ => []
  | .ok es => es

/-- Lines 100-147 of `src/file2png.py`: the full decode pipeline on the
pixels of an opened image — scan and rebuild bytes, then extract. -/
def decodePng (pixels : List Nat) : Except DecodeError (List ArchiveEntry) :=
  match unpack pixels with
  | .error e => .error e
  | .ok bytes_data => unwrap bytes_data

example : pack [65] = [0, 255, 0, 0, 0, 0, 0, 255, 127] := by decide
example : unpack (pack [65]) = .ok [65] := rfl
example : pack [] = [] := by decide
example : unpack [127, 127] = .error .emptyOrInvalidImage := rfl
set_option maxRecDepth 4096 in
example : ∀ v < 256, parseBin (byteToBits v) = some v := by decide
example : extLower (['a', '.', 'z', 'I', 'P']) = ['.', 'z', 'i', 'p'] := by decide
example : extLower (['.', 'z', 'i', 'p']) = [] := by decide
example : baseName ['d', '/', 'f', '.', 'a'] = ['f', '.', 'a'] := by decide
example : zipParse (zipSerialize [⟨['f'], [65, 66]⟩]) = some [⟨['f'], [65, 66]⟩] := by decide
example : zipParse [1, 2, 3] = none := by decide
example :
    unwrap (wrap ['a', '.', 't', 'x', 't'] [65]) =
      .ok [⟨['a', '.', 't', 'x', 't'], [65]⟩] := rfl

/-! ### Helper lemmas: bit expansion of a single byte -/

set_option maxRecDepth 8192 in
/-- Closed form of the 8-character expansion: character `i` is the bit of
weight `2 ^ (7 - i)`, checked exhaustively over all byte values. -/
theorem byteToBits_eq :
    ∀ v < 256, byteToBits v =
      (List.range 8).map (fun i => if v / 2 ^ (7 - i) % 2 = 1 then '1' else '0') := by
  decide

set_option maxRecDepth 8192 in
theorem parseBin_byteToBits : ∀ v < 256, parseBin (byteToBits v) = some v := by
  decide

theorem byteToBits_length {v : Nat} (hv : v < 256) :
    (byteToBits v).length = 8 := by
  rw [byteToBits_eq v hv]; simp

theorem byteToBits_binary {v : Nat} (hv : v < 256) :
    ∀ c ∈ byteToBits v, c = '0' ∨ c = '1' := by
  rw [byteToBits_eq v hv]
  intro c hc
  obtain ⟨i, _, hi⟩ := List.mem_map.mp hc
  by_cases h : v / 2 ^ (7 - i) % 2 = 1
  · right; rw [← hi]; simp [h]
  · left; rw [← hi]; simp [h]

theorem packBits_length {B : List Nat} (hB : ∀ b ∈ B, b < 256) :
    (packBits B).length = 8 * B.length := by
  induction B with
  | nil => simp [packBits]
  | cons b t ih =>
    have hb : b < 256 := hB b (by simp)
    have ht : ∀ x ∈ t, x < 256 := fun x hx => hB x (by simp [hx])
    simp only [packBits, List.map_cons, List.flatten_cons, List.length_append,
      List.length_cons] at *
    rw [byteToBits_length hb, ih ht]
    ring

theorem packBits_binary {B : List Nat} (hB : ∀ b ∈ B, b < 256) :
    ∀ c ∈ packBits B, c = '0' ∨ c = '1' := by
  intro c hc
  simp only [packBits, List.mem_flatten, List.mem_map] at hc
  obtain ⟨l, ⟨b, hb, rfl⟩, hcl⟩ := hc
  exact byteToBits_binary (hB b hb) c hcl

/-! ### Helper lemmas: chunking into 8-character blocks -/

theorem chunk8Core_nil : ∀ fuel, chunk8Core fuel [] = [] := by
  intro fuel; cases fuel <;> rfl

theorem chunk8Core_fuel : ∀ fuel fuel' (l : List Char),
    l.length ≤ fuel → l.length ≤ fuel' →
    chunk8Core fuel l = chunk8Core fuel' l := by
  intro fuel
  induction fuel with
  | zero =>
    intro fuel' l h _
    have : l = [] := List.eq_nil_of_length_eq_zero (Nat.le_zero.mp h)
    subst this; rw [chunk8Core_nil, chunk8Core_nil]
  | succ f ih =>
    intro fuel' l h h'
    cases l with
    | nil => rw [chunk8Core_nil, chunk8Core_nil]
    | cons c t =>
      cases fuel' with
      | zero => simp at h'
      | succ f' =>
        show (c :: t).take 8 :: chunk8Core f ((c :: t).drop 8) =
          (c :: t).take 8 :: chunk8Core f' ((c :: t).drop 8)
        have hlen : ((c :: t).drop 8).length = (c :: t).length - 8 :=
          List.length_drop 8 (c :: t)
        have h1 : ((c :: t).drop 8).length ≤ f := by
          rw [hlen]; simp only [List.length_cons] at h ⊢; omega
        have h2 : ((c :: t).drop 8).length ≤ f' := by
          rw [hlen]; simp only [List.length_cons] at h' ⊢; omega
        rw [ih f' _ h1 h2]

theorem chunk8_cons {l : List Char} (h : l ≠ []) :
    chunk8 l = l.take 8 :: chunk8 (l.drop 8) := by
  cases l with
  | nil => exact absurd rfl h
  | cons c t =>
    have hstep : chunk8 (c :: t) =
        (c :: t).take 8 :: chunk8Core t.length ((c :: t).drop 8) := rfl
    rw [hstep]
    unfold chunk8
    congr 1
    exact chunk8Core_fuel t.length _ _
      (by rw [List.length_drop]; simp only [List.length_cons]; omega) (le_refl _)

theorem chunk8_append8 {l r : List Char} (hl : l.length = 8) :
    chunk8 (l ++ r) = l :: chunk8 r := by
  have hne : l ++ r ≠ [] := by
    intro h
    have := congrArg List.length h
    simp [hl] at this
  rw [chunk8_cons hne]
  congr 1
  · rw [← hl]; exact List.take_left l r
  · rw [show (8 : Nat) = l.length from hl.symm]
    rw [List.drop_left l r]

/-! ### Helper lemmas: byte reconstruction -/

theorem parseBinCore_binary : ∀ (s : List Char) (acc : Nat),
    (∀ c ∈ s, c = '0' ∨ c = '1') →
    ∃ v, parseBinCore acc s = some v ∧ v < (acc + 1) * 2 ^ s.length := by
  intro s
  induction s with
  | nil =>
    intro acc _
    exact ⟨acc, rfl, by simp⟩
  | cons c t ih =>
    intro acc hbin
    have ht : ∀ x ∈ t, x = '0' ∨ x = '1' := fun x hx => hbin x (by simp [hx])
    have hpow : 0 < 2 ^ t.length := pow_pos (by omega) t.length
    rcases hbin c (by simp) with hc | hc
    · subst hc
      obtain ⟨v, hv, hlt⟩ := ih (2 * acc) ht
      refine ⟨v, by simpa [parseBinCore] using hv, ?_⟩
      simp only [List.length_cons, pow_succ]
      nlinarith [hlt, hpow]
    · subst hc
      obtain ⟨v, hv, hlt⟩ := ih (2 * acc + 1) ht
      refine ⟨v, by simpa [parseBinCore] using hv, ?_⟩
      simp only [List.length_cons, pow_succ]
      nlinarith [hlt, hpow]

theorem parseBin_binary {s : List Char} (hne : s ≠ [])
    (hbin : ∀ c ∈ s, c = '0' ∨ c = '1') (hlen : s.length ≤ 8) :
    ∃ v, parseBin s = some v ∧ v < 256 := by
  cases s with
  | nil => exact absurd rfl hne
  | cons c t =>
    obtain ⟨v, hv, hlt⟩ := parseBinCore_binary (c :: t) 0 hbin
    refine ⟨v, hv, lt_of_lt_of_le hlt ?_⟩
    have : (2 : Nat) ^ (c :: t).length ≤ 2 ^ 8 :=
      Nat.pow_le_pow_right (by omega) hlen
    simpa using this

theorem ljustBlock_binary {block : List Char}
    (hne : block ≠ []) (hbin : ∀ c ∈ block, c = '0' ∨ c = '1')
    (hlen : block.length ≤ 8) :
    ljustBlock block ≠ [] ∧ (∀ c ∈ ljustBlock block, c = '0' ∨ c = '1') ∧
      (ljustBlock block).length ≤ 8 := by
  unfold ljustBlock
  split
  · refine ⟨?_, ?_, ?_⟩
    · intro hcon
      rcases List.append_eq_nil.mp hcon with ⟨h1, _⟩
      exact hne h1
    · intro c hc
      rcases List.mem_append.mp hc with h | h
      · exact hbin c h
      · exact Or.inl (List.eq_of_mem_replicate h)
    · simp only [List.length_append, List.length_replicate, BITS_PER_BYTE] at *
      omega
  · exact ⟨hne, hbin, hlen⟩

theorem appendBlock_binary {block : List Char} (acc : List Nat)
    (hne : block ≠ []) (hbin : ∀ c ∈ block, c = '0' ∨ c = '1')
    (hlen : block.length ≤ 8) :
    ∃ v, v < 256 ∧ appendBlock acc block = .ok (acc ++ [v]) := by
  obtain ⟨hbne, hbbin, hblen⟩ := ljustBlock_binary hne hbin hlen
  obtain ⟨v, hv, hlt⟩ := parseBin_binary hbne hbbin hblen
  refine ⟨v, hlt, ?_⟩
  unfold appendBlock
  rw [hv]
  simp [hlt]

/-- The full-block case: `appendBlock` on an exact 8-character expansion of
a byte recovers that byte. -/
theorem appendBlock_byteToBits {v : Nat} (hv : v < 256) (acc : List Nat) :
    appendBlock acc (byteToBits v) = .ok (acc ++ [v]) := by
  have h8 : (byteToBits v).length = 8 := byteToBits_length hv
  have hlj : ljustBlock (byteToBits v) = byteToBits v := by
    unfold ljustBlock
    rw [h8]
    simp [BITS_PER_BYTE]
  unfold appendBlock
  rw [hlj, parseBin_byteToBits v hv]
  simp [hv]

theorem foldlM_byteToBits {B : List Nat} (hB : ∀ b ∈ B, b < 256) :
    ∀ acc : List Nat,
      (B.map byteToBits).foldlM appendBlock acc = .ok (acc ++ B) := by
  induction B with
  | nil =>
    intro acc
    simp only [List.map_nil, List.foldlM_nil, List.append_nil]
    rfl
  | cons b t ih =>
    intro acc
    have hb : b < 256 := hB b (by simp)
    have ht : ∀ x ∈ t, x < 256 := fun x hx => hB x (by simp [hx])
    simp only [List.map_cons, List.foldlM_cons]
    rw [appendBlock_byteToBits hb acc]
    show (t.map byteToBits).foldlM appendBlock (acc ++ [b]) = .ok (acc ++ b :: t)
    rw [ih ht (acc ++ [b])]
    simp

theorem chunk8_packBits {B : List Nat} (hB : ∀ b ∈ B, b < 256) :
    chunk8 (packBits B) = B.map byteToBits := by
  induction B with
  | nil => rfl
  | cons b t ih =>
    have hb : b < 256 := hB b (by simp)
    have ht : ∀ x ∈ t, x < 256 := fun x hx => hB x (by simp [hx])
    show chunk8 (byteToBits b ++ packBits t) = _
    rw [chunk8_append8 (byteToBits_length hb), ih ht]
    rfl

theorem reconstructBytes_packBits {B : List Nat} (hB : ∀ b ∈ B, b < 256) :
    reconstructBytes (packBits B) = .ok B := by
  unfold reconstructBytes
  rw [chunk8_packBits hB, foldlM_byteToBits hB []]
  simp

/-! ### Helper lemmas: the pixel grid and its scan -/

theorem drawPixels_eq {bits : List Char} {s : Nat} (h : bits.length ≤ s * s) :
    drawPixels bits s =
      bits.map (fun c => if c = '1' then WHITE else BLACK) ++
        List.replicate (s * s - bits.length) GRAY_PADDING := by
  apply List.ext_getElem
  · simp [drawPixels]
    omega
  · intro i h1 h2
    simp only [drawPixels, List.getElem_map, List.getElem_range]
    have hi : i < s * s := by simpa [drawPixels] using h1
    by_cases hlt : i < bits.length
    · rw [if_pos hlt]
      rw [List.getElem_append_left (by simpa using hlt)]
      rw [List.getElem_map]
      rw [List.getD_eq_getElem bits '0' hlt]
    · rw [if_neg hlt]
      rw [List.getElem_append_right (by simpa using hlt)]
      simp

theorem readBits_append (a b : List Nat) :
    readBits (a ++ b) = readBits a ++ readBits b := by
  simp [readBits]

theorem readBits_mapBit {bits : List Char}
    (hbin : ∀ c ∈ bits, c = '0' ∨ c = '1') :
    readBits (bits.map (fun c => if c = '1' then WHITE else BLACK)) = bits := by
  induction bits with
  | nil => rfl
  | cons c t ih =>
    have ht : ∀ x ∈ t, x = '0' ∨ x = '1' := fun x hx => hbin x (by simp [hx])
    rcases hbin c (by simp) with hc | hc <;> subst hc
    · simpa [readBits, pixelChar, WHITE, BLACK] using ih ht
    · simpa [readBits, pixelChar, WHITE, BLACK] using ih ht

theorem readBits_replicate_pad (k : Nat) :
    readBits (List.replicate k GRAY_PADDING) = [] := by
  induction k with
  | zero => rfl
  | succ m ih =>
    simp only [List.replicate_succ, readBits, List.filterMap_cons]
    have : pixelChar GRAY_PADDING = none := by decide
    rw [this]
    exact ih

/-! ### Helper lemmas: side length -/

theorem sideCore_spec (n : Nat) : ∀ fuel s, n ≤ (s + fuel) * (s + fuel) →
    n ≤ sideCore n fuel s * sideCore n fuel s ∧
      ∀ u, s ≤ u → n ≤ u * u → sideCore n fuel s ≤ u := by
  intro fuel
  induction fuel with
  | zero =>
    intro s h
    exact ⟨by simpa using h, fun u hu _ => hu⟩
  | succ f ih =>
    intro s h
    by_cases hs : n ≤ s * s
    · simp only [sideCore, if_pos hs]
      exact ⟨hs, fun u hu _ => hu⟩
    · simp only [sideCore, if_neg hs]
      have h' : n ≤ (s + 1 + f) * (s + 1 + f) := by
        have harr : s + 1 + f = s + (f + 1) := by omega
        rw [harr]
        exact h
      obtain ⟨h1, h2⟩ := ih (s + 1) h'
      refine ⟨h1, fun u hu hnu => ?_⟩
      rcases Nat.lt_or_ge s u with hlt | hge
      · exact h2 u hlt hnu
      · have hus : u = s := le_antisymm hge hu
        subst hus
        exact absurd hnu hs

theorem sideLen_spec (n : Nat) :
    n ≤ sideLen n * sideLen n ∧ ∀ u, n ≤ u * u → sideLen n ≤ u := by
  have hn : n ≤ (0 + n) * (0 + n) := by
    simp only [Nat.zero_add]
    nlinarith
  obtain ⟨h1, h2⟩ := sideCore_spec n n 0 hn
  exact ⟨h1, fun u hu => h2 u (Nat.zero_le u) hu⟩

theorem sideLen_eq_ceil (n : Nat) :
    sideLen n = Nat.ceil (Real.sqrt (n : ℝ)) := by
  obtain ⟨h1, h2⟩ := sideLen_spec n
  apply le_antisymm
  · apply h2
    have hsq : (n : ℝ) ≤ (Nat.ceil (Real.sqrt (n : ℝ)) : ℝ) *
        (Nat.ceil (Real.sqrt (n : ℝ)) : ℝ) := by
      nlinarith [Real.sq_sqrt (show (0 : ℝ) ≤ (n : ℝ) by positivity),
        Nat.le_ceil (Real.sqrt (n : ℝ)), Real.sqrt_nonneg (n : ℝ)]
    exact_mod_cast hsq
  · apply Nat.ceil_le.mpr
    have hcast : (n : ℝ) ≤ (sideLen n : ℝ) * (sideLen n : ℝ) := by
      exact_mod_cast h1
    have hs : (0 : ℝ) ≤ (sideLen n : ℝ) := by positivity
    calc Real.sqrt (n : ℝ)
        ≤ Real.sqrt ((sideLen n : ℝ) * (sideLen n : ℝ)) := Real.sqrt_le_sqrt hcast
      _ = (sideLen n : ℝ) := Real.sqrt_mul_self hs

theorem readBits_pack {B : List Nat} (hB : ∀ b ∈ B, b < 256) :
    readBits (pack B) = packBits B := by
  have hle : (packBits B).length ≤
      sideLen (packBits B).length * sideLen (packBits B).length :=
    (sideLen_spec (packBits B).length).1
  unfold pack
  rw [drawPixels_eq hle, readBits_append, readBits_mapBit (packBits_binary hB),
    readBits_replicate_pad]
  simp

/-! ### Helper lemmas: totality of the scan and reconstruction -/

theorem readBits_binary (pixels : List Nat) :
    ∀ c ∈ readBits pixels, c = '0' ∨ c = '1' := by
  intro c hc
  obtain ⟨p, _, hp⟩ := List.mem_filterMap.mp hc
  unfold pixelChar at hp
  split at hp
  · exact Or.inl (Option.some_injective _ hp).symm
  · split at hp
    · exact Or.inr (Option.some_injective _ hp).symm
    · exact absurd hp (by simp)

theorem foldlM_chunk_binary : ∀ (k : Nat) (bits : List Char) (acc : List Nat),
    bits.length ≤ k → (∀ c ∈ bits, c = '0' ∨ c = '1') →
    ∃ bs, (chunk8 bits).foldlM appendBlock acc = .ok (acc ++ bs) ∧
      ∀ b ∈ bs, b < 256 := by
  intro k
  induction k with
  | zero =>
    intro bits acc h _
    have hb : bits = [] := List.eq_nil_of_length_eq_zero (Nat.le_zero.mp h)
    subst hb
    exact ⟨[], by simp [chunk8, chunk8Core]; rfl, by simp⟩
  | succ k ih =>
    intro bits acc h hbin
    by_cases hne : bits = []
    · subst hne
      exact ⟨[], by simp [chunk8, chunk8Core]; rfl, by simp⟩
    · rw [chunk8_cons hne, List.foldlM_cons]
      have htne : bits.take 8 ≠ [] := by
        intro hc
        rw [List.take_eq_nil_iff] at hc
        rcases hc with hc | hc
        · exact absurd hc (by omega)
        · exact hne hc
      have htbin : ∀ c ∈ bits.take 8, c = '0' ∨ c = '1' :=
        fun c hc => hbin c (List.mem_of_mem_take hc)
      have htlen : (bits.take 8).length ≤ 8 := by
        simp [List.length_take]
      obtain ⟨v, hv, happ⟩ := appendBlock_binary acc htne htbin htlen
      rw [happ]
      have hdlen : (bits.drop 8).length ≤ k := by
        rw [List.length_drop]
        have : bits.length ≠ 0 := fun hc => hne (List.eq_nil_of_length_eq_zero hc)
        omega
      have hdbin : ∀ c ∈ bits.drop 8, c = '0' ∨ c = '1' :=
        fun c hc => hbin c (List.mem_of_mem_drop hc)
      obtain ⟨bs, hbs, hblt⟩ := ih (bits.drop 8) (acc ++ [v]) hdlen hdbin
      refine ⟨v :: bs, ?_, ?_⟩
      · show (chunk8 (bits.drop 8)).foldlM appendBlock (acc ++ [v]) = _
        rw [hbs]
        simp
      · intro b hb
        rcases List.mem_cons.mp hb with hb | hb
        · exact hb ▸ hv
        · exact hblt b hb

theorem reconstructBytes_binary {bits : List Char}
    (hbin : ∀ c ∈ bits, c = '0' ∨ c = '1') :
    ∃ bs, reconstructBytes bits = .ok bs ∧ ∀ b ∈ bs, b < 256 := by
  obtain ⟨bs, h, hlt⟩ := foldlM_chunk_binary bits.length bits [] (le_refl _) hbin
  exact ⟨bs, by simpa [reconstructBytes] using h, hlt⟩

theorem chunk8_dropLast_full : ∀ (k : Nat) (l : List Char), l.length ≤ k →
    ∀ blk ∈ (chunk8 l).dropLast, blk.length = 8 := by
  intro k
  induction k with
  | zero =>
    intro l h blk hblk
    have hl : l = [] := List.eq_nil_of_length_eq_zero (Nat.le_zero.mp h)
    subst hl
    simp [chunk8, chunk8Core] at hblk
  | succ k ih =>
    intro l h blk hblk
    by_cases hne : l = []
    · subst hne
      simp [chunk8, chunk8Core] at hblk
    · rw [chunk8_cons hne] at hblk
      by_cases hd : l.drop 8 = []
      · rw [hd] at hblk
        simp [chunk8, chunk8Core] at hblk
      · have hlen8 : 8 < l.length := by
          have := List.length_drop 8 l
          have hpos : 0 < (l.drop 8).length := List.length_pos.mpr hd
          omega
        rw [chunk8_cons hd] at hblk
        rw [List.dropLast_cons₂] at hblk
        rcases List.mem_cons.mp hblk with hb | hb
        · subst hb
          simp [List.length_take]
          omega
        · rw [← chunk8_cons hd] at hb
          refine ih (l.drop 8) ?_ blk hb
          rw [List.length_drop]
          have : l.length ≠ 0 := fun hc => hne (List.eq_nil_of_length_eq_zero hc)
          omega

/-! ### Helper lemmas: a truncated final block -/

theorem appendBlock_short_pad {block : List Char} (acc : List Nat)
    (hlt : block.length < 8) (_hmod : block.length % 8 ≠ 0) :
    appendBlock acc block =
      appendBlock acc (block ++ List.replicate (8 - block.length % 8) '0') := by
  have hmodeq : block.length % 8 = block.length := Nat.mod_eq_of_lt hlt
  have hfull : (block ++ List.replicate (8 - block.length % 8) '0').length = 8 := by
    simp [hmodeq]
    omega
  unfold appendBlock
  have hlj1 : ljustBlock block =
      block ++ List.replicate (8 - block.length % 8) '0' := by
    unfold ljustBlock
    rw [if_pos (by simpa [BITS_PER_BYTE] using hlt), hmodeq]
    rfl
  have hlj2 : ljustBlock (block ++ List.replicate (8 - block.length % 8) '0') =
      block ++ List.replicate (8 - block.length % 8) '0' := by
    unfold ljustBlock
    rw [hfull]
    simp [BITS_PER_BYTE]
  rw [hlj1, hlj2]

theorem foldlM_chunk_pad : ∀ (k : Nat) (bits : List Char) (acc : List Nat),
    bits.length ≤ k → bits.length % 8 ≠ 0 →
    (chunk8 bits).foldlM appendBlock acc =
      (chunk8 (bits ++ List.replicate (8 - bits.length % 8) '0')).foldlM
        appendBlock acc := by
  intro k
  induction k with
  | zero =>
    intro bits acc h hmod
    have hb : bits = [] := List.eq_nil_of_length_eq_zero (Nat.le_zero.mp h)
    subst hb
    simp at hmod
  | succ k ih =>
    intro bits acc h hmod
    have hne : bits ≠ [] := by
      intro hc
      subst hc
      simp at hmod
    by_cases hlt : bits.length < 8
    · -- single short block: both sides are one appendBlock on the same
      -- effective 8-character block
      have hmodeq : bits.length % 8 = bits.length := Nat.mod_eq_of_lt hlt
      have hd : bits.drop 8 = [] := by
        rw [List.drop_eq_nil_iff]
        omega
      have ht : bits.take 8 = bits := List.take_of_length_le (by omega)
      have hfullne : bits ++ List.replicate (8 - bits.length % 8) '0' ≠ [] := by
        intro hc
        rcases List.append_eq_nil.mp hc with ⟨hc1, _⟩
        exact hne hc1
      have hfulllen : (bits ++ List.replicate (8 - bits.length % 8) '0').length = 8 := by
        simp [hmodeq]
        omega
      rw [chunk8_cons hne, hd, chunk8_cons hfullne]
      have htf : (bits ++ List.replicate (8 - bits.length % 8) '0').take 8 =
          bits ++ List.replicate (8 - bits.length % 8) '0' :=
        List.take_of_length_le (by omega)
      have hdf : (bits ++ List.replicate (8 - bits.length % 8) '0').drop 8 = [] := by
        rw [List.drop_eq_nil_iff]
        omega
      rw [ht, htf, hdf]
      show appendBlock acc bits >>= _ = _
      rw [appendBlock_short_pad acc hlt hmod]
      rfl
    · -- at least one full block: peel it off both sides and recurse
      push_neg at hlt
      have hne2 : bits ++ List.replicate (8 - bits.length % 8) '0' ≠ [] := by
        intro hc
        rcases List.append_eq_nil.mp hc with ⟨hc1, _⟩
        exact hne hc1
      rw [chunk8_cons hne, chunk8_cons hne2]
      rw [List.take_append_of_le_length hlt, List.drop_append_of_le_length hlt]
      rw [List.foldlM_cons, List.foldlM_cons]
      have hdmod : (bits.drop 8).length % 8 ≠ 0 := by
        rw [List.length_drop]
        omega
      have hdmod8 : 8 - (bits.drop 8).length % 8 = 8 - bits.length % 8 := by
        rw [List.length_drop]
        omega
      have hdlen : (bits.drop 8).length ≤ k := by
        rw [List.length_drop]
        omega
      apply bind_congr
      intro x
      have hrec := ih (bits.drop 8) x hdlen hdmod
      rw [hdmod8] at hrec
      exact hrec

/-! ### Helper lemmas: the modelled archive container -/

theorem parseUnary_unaryEnc : ∀ (n : Nat) (r : List Nat),
    parseUnary (unaryEnc n ++ r) = some (n, r) := by
  intro n
  induction n with
  | zero => intro r; rfl
  | succ m ih =>
    intro r
    show parseUnary (1 :: (List.replicate m 1 ++ [0] ++ r)) = _
    simp only [parseUnary, if_neg (by omega : (1 : Nat) ≠ 0), if_pos rfl]
    have : List.replicate m 1 ++ [0] ++ r = unaryEnc m ++ r := rfl
    rw [this, ih r]
    rfl

theorem splitAtLen_append {n : Nat} {l r : List Nat} (h : l.length = n) :
    splitAtLen n (l ++ r) = some (l, r) := by
  subst h
  unfold splitAtLen
  rw [if_pos (by simp)]
  rw [List.take_left, List.drop_left]

theorem parseEntry_encEntry (e : ArchiveEntry) (r : List Nat) :
    parseEntry (encEntry e ++ r) = some (e, r) := by
  unfold parseEntry encEntry
  rw [show unaryEnc e.name.length ++ e.name.map Char.toNat ++
      unaryEnc e.contents.length ++ e.contents ++ r =
      unaryEnc e.name.length ++ (e.name.map Char.toNat ++
        (unaryEnc e.contents.length ++ (e.contents ++ r))) by
    simp [List.append_assoc]]
  rw [parseUnary_unaryEnc]
  simp only [Option.bind_eq_bind, Option.some_bind]
  rw [splitAtLen_append (by simp)]
  simp only [Option.some_bind]
  rw [show e.contents ++ r = e.contents ++ r from rfl, parseUnary_unaryEnc]
  simp only [Option.some_bind]
  rw [splitAtLen_append rfl]
  simp only [Option.some_bind]
  have hname : (e.name.map Char.toNat).map Char.ofNat = e.name := by
    rw [List.map_map]
    have : (Char.ofNat ∘ Char.toNat) = id := by
      funext c
      exact Char.ofNat_toNat c
    rw [this, List.map_id]
  rw [hname]

theorem parseEntries_enc : ∀ (es : List ArchiveEntry) (r : List Nat),
    parseEntries es.length ((es.map encEntry).flatten ++ r) = some (es, r) := by
  intro es
  induction es with
  | nil => intro r; simp [parseEntries]
  | cons e t ih =>
    intro r
    have harr : (List.map encEntry (e :: t)).flatten ++ r =
        encEntry e ++ ((t.map encEntry).flatten ++ r) := by
      simp [List.append_assoc]
    rw [List.length_cons, harr]
    simp only [parseEntries, Option.bind_eq_bind]
    rw [parseEntry_encEntry]
    simp only [Option.some_bind]
    rw [ih r]
    rfl

theorem zipParse_zipSerialize (es : List ArchiveEntry) :
    zipParse (zipSerialize es) = some es := by
  unfold zipSerialize zipParse
  simp only [Option.bind_eq_bind]
  rw [show unaryEnc es.length ++ (es.map encEntry).flatten =
      unaryEnc es.length ++ ((es.map encEntry).flatten ++ []) by simp]
  rw [parseUnary_unaryEnc]
  simp only [Option.some_bind]
  rw [parseEntries_enc]
  simp

/-! ### The claims -/

/-- C1: Round-trip law — for every non-empty byte sequence `B`, decoding
the image produced by encoding `B` yields exactly `B`:
`unpack (pack B) = B`, where `pack` is the bit-expansion and pixel-drawing
stage of `encode_file` and `unpack` the pixel-scanning and
byte-reconstruction stage of `decode_png`. -/
theorem C1_round_trip (B : List Nat) (hne : B ≠ []) (hB : ∀ b ∈ B, b < 256) :
    unpack (pack B) = .ok B := by
  have hbits : readBits (pack B) = packBits B := readBits_pack hB
  have hlen : (packBits B).length = 8 * B.length := packBits_length hB
  have hne2 : packBits B ≠ [] := by
    intro hc
    have h0 := congrArg List.length hc
    rw [hlen] at h0
    simp only [List.length_nil] at h0
    have : B.length ≠ 0 := fun hl => hne (List.eq_nil_of_length_eq_zero hl)
    omega
  simp only [unpack, hbits, if_neg hne2]
  exact reconstructBytes_packBits hB

/-- Witness for C1 at the one-byte input `[65]`. -/
theorem C1_round_trip_witness :
    ([65] : List Nat) ≠ [] ∧ unpack (pack [65]) = .ok [65] :=
  ⟨by decide, C1_round_trip [65] (by decide) (by decide)⟩

/-- C2: Dimension law — for every non-empty input with `n = 8 * len(bytes)`
bits, `pack` produces a square image of side `ceil (sqrt n)` (the least `s`
with `n ≤ s * s`); the first `n` row-major pixels are WHITE for bit '1'
and BLACK for bit '0', and the remaining `side * side - n` pixels, all at
row-major indices at least `n`, are exactly the PAD value 127. -/
theorem C2_dimension_law (B : List Nat) (_hne : B ≠ []) (hB : ∀ b ∈ B, b < 256) :
    sideLen (8 * B.length) = Nat.ceil (Real.sqrt ((8 * B.length : Nat) : ℝ)) ∧
    8 * B.length ≤ sideLen (8 * B.length) * sideLen (8 * B.length) ∧
    (∀ u, 8 * B.length ≤ u * u → sideLen (8 * B.length) ≤ u) ∧
    (pack B).length = sideLen (8 * B.length) * sideLen (8 * B.length) ∧
    (pack B).take (8 * B.length) =
      (packBits B).map (fun c => if c = '1' then WHITE else BLACK) ∧
    (pack B).drop (8 * B.length) =
      List.replicate
        (sideLen (8 * B.length) * sideLen (8 * B.length) - 8 * B.length)
        GRAY_PADDING ∧
    (pack B).count GRAY_PADDING =
      sideLen (8 * B.length) * sideLen (8 * B.length) - 8 * B.length := by
  have hlen : (packBits B).length = 8 * B.length := packBits_length hB
  have hspec := sideLen_spec (8 * B.length)
  have hle : (packBits B).length ≤
      sideLen (8 * B.length) * sideLen (8 * B.length) := by
    rw [hlen]
    exact hspec.1
  have hpack : pack B =
      (packBits B).map (fun c => if c = '1' then WHITE else BLACK) ++
        List.replicate
          (sideLen (8 * B.length) * sideLen (8 * B.length) - 8 * B.length)
          GRAY_PADDING := by
    unfold pack
    rw [hlen, drawPixels_eq hle, hlen]
  have hmaplen :
      ((packBits B).map (fun c => if c = '1' then WHITE else BLACK)).length =
        8 * B.length := by
    rw [List.length_map, hlen]
  refine ⟨sideLen_eq_ceil (8 * B.length), hspec.1, hspec.2, ?_, ?_, ?_, ?_⟩
  · rw [hpack]
    simp only [List.length_append, List.length_replicate, hmaplen]
    have := hspec.1
    omega
  · rw [hpack, ← hmaplen, List.take_left]
  · rw [hpack, ← hmaplen, List.drop_left]
  · rw [hpack, List.count_append]
    have hz : ((packBits B).map
        (fun c => if c = '1' then WHITE else BLACK)).count GRAY_PADDING = 0 := by
      rw [List.count_eq_zero]
      intro hmem
      obtain ⟨c, _, hc⟩ := List.mem_map.mp hmem
      by_cases h1 : c = '1'
      · rw [if_pos h1] at hc
        simp [WHITE, GRAY_PADDING] at hc
      · rw [if_neg h1] at hc
        simp [BLACK, GRAY_PADDING] at hc
    rw [hz, List.count_replicate]
    simp

/-- Witness for C2 at the one-byte input `[65]`. -/
theorem C2_dimension_law_witness :
    ([65] : List Nat) ≠ [] ∧
    (sideLen (8 * ([65] : List Nat).length) =
        Nat.ceil (Real.sqrt ((8 * ([65] : List Nat).length : Nat) : ℝ)) ∧
      8 * ([65] : List Nat).length ≤
        sideLen (8 * ([65] : List Nat).length) *
          sideLen (8 * ([65] : List Nat).length) ∧
      (∀ u, 8 * ([65] : List Nat).length ≤ u * u →
        sideLen (8 * ([65] : List Nat).length) ≤ u) ∧
      (pack [65]).length = sideLen (8 * ([65] : List Nat).length) *
          sideLen (8 * ([65] : List Nat).length) ∧
      (pack [65]).take (8 * ([65] : List Nat).length) =
        (packBits [65]).map (fun c => if c = '1' then WHITE else BLACK) ∧
      (pack [65]).drop (8 * ([65] : List Nat).length) =
        List.replicate
          (sideLen (8 * ([65] : List Nat).length) *
            sideLen (8 * ([65] : List Nat).length) - 8 * ([65] : List Nat).length)
          GRAY_PADDING ∧
      (pack [65]).count GRAY_PADDING =
        sideLen (8 * ([65] : List Nat).length) *
          sideLen (8 * ([65] : List Nat).length) - 8 * ([65] : List Nat).length) :=
  ⟨by decide, C2_dimension_law [65] (by decide) (by decide)⟩

/-- C3: MSB-first expansion — for every byte value `v < 256` the emitted
bit group has length 8 with character `i` equal to `(v >>> (7 - i)) &&& 1`
rendered as '1'/'0', and the full bit sequence is the concatenation of the
per-byte groups in input order, of length 8 times the byte count. -/
theorem C3_msb_expansion (v : Nat) (hv : v < 256) (B : List Nat)
    (hB : ∀ b ∈ B, b < 256) :
    (byteToBits v).length = 8 ∧
    (∀ i < 8, (byteToBits v).getD i '0' =
      (if v >>> (7 - i) &&& 1 = 1 then '1' else '0')) ∧
    packBits B = (B.map byteToBits).flatten ∧
    (packBits B).length = 8 * B.length := by
  refine ⟨byteToBits_length hv, ?_, rfl, packBits_length hB⟩
  intro i hi
  rw [byteToBits_eq v hv]
  have hilen : i < ((List.range 8).map
      (fun i => if v / 2 ^ (7 - i) % 2 = 1 then '1' else '0')).length := by
    simp [hi]
  rw [List.getD_eq_getElem _ '0' hilen, List.getElem_map]
  simp only [List.getElem_range]
  simp [Nat.shiftRight_eq_div_pow, Nat.and_one_is_mod]

/-- Witness for C3 at byte value 65 and input `[65]`. -/
theorem C3_msb_expansion_witness :
    (65 : Nat) < 256 ∧
    ((byteToBits 65).length = 8 ∧
      (∀ i < 8, (byteToBits 65).getD i '0' =
        (if 65 >>> (7 - i) &&& 1 = 1 then '1' else '0')) ∧
      packBits [65] = (([65] : List Nat).map byteToBits).flatten ∧
      (packBits [65]).length = 8 * ([65] : List Nat).length) :=
  ⟨by decide, C3_msb_expansion 65 (by decide) [65] (by decide)⟩

/-- C4 counterexample: on the empty byte stream the code does not produce
a 1×1 PAD image — the computed side is `ceil (sqrt 0) = 0` and the pixel
grid is empty. -/
theorem C4_counterexample : pack [] ≠ [GRAY_PADDING] ∧ sideLen 0 ≠ 1 := by
  decide

/-- C4 (amended): when the input byte stream is empty (`n = 0`), the
pixel-drawing stage of `encode_file` computes side `0` and produces a
degenerate 0×0 image with no pixels (without crashing in this stage);
there is no special case producing a 1×1 PAD image. -/
theorem C4_empty_input : sideLen 0 = 0 ∧ pack [] = [] := by
  decide

/-- C5: Empty/invalid-image error — for every image in which no pixel is
BLACK (0) or WHITE (255), zero bits are collected, `decode_png` reports
the empty-or-invalid-image error, and it returns before any byte
reconstruction or archive parsing is attempted (no crash). -/
theorem C5_empty_image (pixels : List Nat)
    (h : ∀ p ∈ pixels, p ≠ BLACK ∧ p ≠ WHITE) :
    unpack pixels = .error .emptyOrInvalidImage ∧
      decodePng pixels = .error .emptyOrInvalidImage := by
  have hbits : readBits pixels = [] := by
    apply List.filterMap_eq_nil_iff.mpr
    intro p hp
    obtain ⟨h1, h2⟩ := h p hp
    unfold pixelChar
    rw [if_neg h1, if_neg h2]
  have hu : unpack pixels = .error .emptyOrInvalidImage := by
    simp [unpack, hbits]
  refine ⟨hu, ?_⟩
  unfold decodePng
  rw [hu]

/-- Witness for C5 at the all-PAD two-pixel image `[127, 127]`. -/
theorem C5_empty_image_witness :
    (∀ p ∈ ([127, 127] : List Nat), p ≠ BLACK ∧ p ≠ WHITE) ∧
    (unpack [127, 127] = .error .emptyOrInvalidImage ∧
      decodePng [127, 127] = .error .emptyOrInvalidImage) :=
  ⟨by decide, C5_empty_image [127, 127] (by decide)⟩

/-- C6: Malformed-archive handling — for every recovered byte stream that
does not parse as a valid archive container, `unwrap` reports the
malformed-archive error (the caught `zipfile.BadZipFile`), does not crash,
and writes no files into the destination directory. -/
theorem C6_malformed_archive (bs : List Nat) (h : zipParse bs = none) :
    unwrap bs = .error .malformedArchive ∧ filesWritten (unwrap bs) = [] := by
  have hu : unwrap bs = .error .malformedArchive := by
    unfold unwrap
    rw [h]
  exact ⟨hu, by rw [hu]; rfl⟩

/-- Witness for C6 at the three-byte non-archive stream `[1, 2, 3]`. -/
theorem C6_malformed_archive_witness :
    zipParse [1, 2, 3] = none ∧
    (unwrap [1, 2, 3] = .error .malformedArchive ∧
      filesWritten (unwrap [1, 2, 3]) = []) :=
  ⟨by decide, C6_malformed_archive [1, 2, 3] (by decide)⟩

/-- C7: Truncated-group recovery — when the collected bit sequence has
length not a multiple of 8, every group before the last is a full 8-bit
group converted unchanged, and the whole reconstruction equals the one on
the sequence right-padded with '0' bits to a multiple of 8 (the short
final group is `ljust`ed before MSB-first conversion); no error is
raised. -/
theorem C7_truncated_group (bits : List Char)
    (hbin : ∀ c ∈ bits, c = '0' ∨ c = '1') (hmod : bits.length % 8 ≠ 0) :
    reconstructBytes bits =
      reconstructBytes (bits ++ List.replicate (8 - bits.length % 8) '0') ∧
    (∀ blk ∈ (chunk8 bits).dropLast, blk.length = 8) ∧
    ∃ bs, reconstructBytes bits = .ok bs := by
  refine ⟨?_, chunk8_dropLast_full bits.length bits (le_refl _), ?_⟩
  · unfold reconstructBytes
    exact foldlM_chunk_pad bits.length bits [] (le_refl _) hmod
  · obtain ⟨bs, hok, _⟩ := reconstructBytes_binary hbin
    exact ⟨bs, hok⟩

/-- Witness for C7 at the three-bit sequence `['1', '0', '1']`. -/
theorem C7_truncated_group_witness :
    (∀ c ∈ (['1', '0', '1'] : List Char), c = '0' ∨ c = '1') ∧
    (['1', '0', '1'] : List Char).length % 8 ≠ 0 ∧
    (reconstructBytes ['1', '0', '1'] =
      reconstructBytes (['1', '0', '1'] ++
        List.replicate (8 - (['1', '0', '1'] : List Char).length % 8) '0') ∧
    (∀ blk ∈ (chunk8 ['1', '0', '1']).dropLast, blk.length = 8) ∧
    ∃ bs, reconstructBytes ['1', '0', '1'] = .ok bs) :=
  ⟨by decide, by decide,
    C7_truncated_group ['1', '0', '1'] (by decide) (by decide)⟩

/-- C8: Archive pass-through idempotence — for every source whose
extension (lower-cased) is `.zip`, `wrap` returns the file contents
byte-for-byte unchanged, with no re-compression. -/
theorem C8_zip_passthrough (path : List Char) (contents : List Nat)
    (h : extLower path = ['.', 'z', 'i', 'p']) :
    wrap path contents = contents := by
  unfold wrap
  rw [if_pos h]

/-- Witness for C8 at the path `b.ZIP` (upper case exercising `lower`). -/
theorem C8_zip_passthrough_witness :
    extLower ['b', '.', 'Z', 'I', 'P'] = ['.', 'z', 'i', 'p'] ∧
    wrap ['b', '.', 'Z', 'I', 'P'] [0, 255, 3] = [0, 255, 3] :=
  ⟨by decide, C8_zip_passthrough ['b', '.', 'Z', 'I', 'P'] [0, 255, 3]
    (by decide)⟩

/-- C9: Archive symmetry — for every non-archive source with contents `C`
and base filename `name` (directory components stripped), `wrap` builds a
single-entry archive with that one entry, and `unwrap` after `wrap`
extracts exactly one file named `name` with contents `C`. -/
theorem C9_archive_symmetry (path : List Char) (C : List Nat)
    (h : extLower path ≠ ['.', 'z', 'i', 'p']) :
    unwrap (wrap path C) = .ok [⟨baseName path, C⟩] ∧
    filesWritten (unwrap (wrap path C)) = [⟨baseName path, C⟩] := by
  have hw : wrap path C = zipSerialize [⟨baseName path, C⟩] := by
    unfold wrap
    rw [if_neg h]
  have hu : unwrap (wrap path C) = .ok [⟨baseName path, C⟩] := by
    rw [hw]
    unfold unwrap
    rw [zipParse_zipSerialize]
  exact ⟨hu, by rw [hu]; rfl⟩

/-- Witness for C9 at the path `dir/a.txt` with contents `[65, 0]`. -/
theorem C9_archive_symmetry_witness :
    extLower ['d', 'i', 'r', '/', 'a', '.', 't', 'x', 't'] ≠
      ['.', 'z', 'i', 'p'] ∧
    (unwrap (wrap ['d', 'i', 'r', '/', 'a', '.', 't', 'x', 't'] [65, 0]) =
      .ok [⟨['a', '.', 't', 'x', 't'], [65, 0]⟩] ∧
    filesWritten
        (unwrap (wrap ['d', 'i', 'r', '/', 'a', '.', 't', 'x', 't'] [65, 0])) =
      [⟨['a', '.', 't', 'x', 't'], [65, 0]⟩]) :=
  ⟨by decide,
    C9_archive_symmetry ['d', 'i', 'r', '/', 'a', '.', 't', 'x', 't'] [65, 0]
      (by decide)⟩

/-- C10: Totality of the scan and reconstruction — for every pixel list of
arbitrary values, the scan collects only the characters '0' and '1'
(skipping every pixel that is neither 0 nor 255, order preserved by
`List.filterMap`), and the byte reconstruction always succeeds with every
produced byte below 256; neither stage can fail. -/
theorem C10_total_scan (pixels : List Nat) :
    (∀ c ∈ readBits pixels, c = '0' ∨ c = '1') ∧
    ∃ bs, reconstructBytes (readBits pixels) = .ok bs ∧ ∀ b ∈ bs, b < 256 :=
  ⟨readBits_binary pixels, reconstructBytes_binary (readBits_binary pixels)⟩
